import Mathlib

/-!
# Verification of the `data_correct` text-normalization and entity-span pipeline

Shallow embedding of `src/text_processor.py` (class `TextProcessor`) and
`src/entity_processor.py` (class `EntityProcessor`).  Strings are `List Char`
(Unicode scalar values, matching Python's code-point strings); the stateless
"processor" classes become namespaces of pure functions, keeping the source
names.

Unicode-dependent primitives are modelled finitely, faithful to the code
points this repository's pipeline distinguishes:

* `unicodedata.normalize('NFKC', ·)` is modelled as compatibility
  decomposition by a character table (the fullwidth ASCII block
  U+FF01..U+FF5E folds to U+0021..U+007E, and the compatibility space code
  points — U+00A0, U+2007, U+202F, U+3000, U+2000..U+200A, U+205F — decompose
  to the ASCII space; every other character is left unchanged) followed by a
  canonical-composition pass over adjacent pairs.  The composition table
  carries the single modelled combining mark U+0300 (`a`+U+0300 → U+00E0,
  `A`+U+0300 → U+00C0), enough to witness that removing characters between a
  base letter and a combining mark lets a second NFKC pass compose them.
* `str.lower()` is modelled on the cased characters in the model's range:
  the ASCII letters plus U+00C0 → U+00E0.
* `str.strip()` strips the Python whitespace code points (listed in full).

Python's `re` idioms are embedded by their denotations on the specific
patterns the source builds: a character class `[a-zA-Z0-9…]` is a character
predicate; `re.findall` of `class+` with optional `^`/`$` anchors is the
left-to-right maximal-run scan, where `$` matches at the end of the string
or just before a single final newline (Python semantics).
-/

abbrev Str := List Char

namespace TextProcessor

/-- NFKC folds the fullwidth ASCII block U+FF01..U+FF5E to U+0021..U+007E
(`unicodedata.normalize('NFKC', text)` in `fullwidth_to_halfwidth`). -/
def fwTable : List (Char × Char) :=
  (List.range 94).map (fun i => (Char.ofNat (0xFF01 + i), Char.ofNat (0x21 + i)))

/-- Code points whose NFKC compatibility decomposition is the ASCII space:
U+00A0, U+2000..U+200A, U+202F, U+205F, U+3000. -/
def nfkcSpaceChars : Str :=
  ['\u00A0', '\u2000', '\u2001', '\u2002', '\u2003', '\u2004', '\u2005', '\u2006',
   '\u2007', '\u2008', '\u2009', '\u200A', '\u202F', '\u205F', '\u3000']

/-- Character-wise NFKC compatibility decomposition (modelled table;
identity outside the modelled code points). -/
def decompChar (c : Char) : Str :=
  match fwTable.find? (fun p => p.1 = c) with
  | some p => [p.2]
  | none => if nfkcSpaceChars.contains c then [' '] else [c]

/-- Canonical composition of an adjacent pair (modelled table: the combining
grave accent U+0300 over `a`/`A`). -/
def composePair (a b : Char) : Option Char :=
  if b = '\u0300' then
    if a = 'a' then some '\u00E0'
    else if a = 'A' then some '\u00C0'
    else none
  else none

/-- Canonical composition walk: `a` is the character currently at hand; it
absorbs the next character when the pair composes. -/
def composeFold (a : Char) : Str → Str
  | [] => [a]
  | b :: rest =>
    match composePair a b with
    | some c => composeFold c rest
    | none => a :: composeFold b rest

/-- Canonical composition pass of NFKC: compose adjacent pairs left to
right, retrying the composed character against what follows. -/
def composePass : Str → Str
  | [] => []
  | a :: rest => composeFold a rest

/-- `fullwidth_to_halfwidth`: `unicodedata.normalize('NFKC', text)` —
compatibility decomposition then canonical composition. -/
def fullwidthToHalfwidth (text : Str) : Str :=
  composePass (text.flatMap decompChar)

/-- The three code points deleted by `remove_non_breaking_spaces`. -/
def nbspChars : Str := ['\u00A0', '\u2007', '\u202F']

/-- `remove_non_breaking_spaces`: three successive `str.replace(ch, '')`
calls; replacing a single character by the empty string is a filter. -/
def removeNonBreakingSpaces (text : Str) : Str :=
  ((text.filter (fun c => c ≠ '\u00A0')).filter (fun c => c ≠ '\u2007')).filter
    (fun c => c ≠ '\u202F')

/-- `str.lower()` modelled on the cased characters in the model's range:
ASCII `A`..`Z` plus U+00C0 (the one composed uppercase letter the NFKC model
can produce). -/
def lowerPairs : List (Char × Char) :=
  (List.range 26).map (fun i => (Char.ofNat (0x41 + i), Char.ofNat (0x61 + i))) ++
    [('\u00C0', '\u00E0')]

/-- Lowercase one character (table lookup, identity elsewhere). -/
def toLowerChar (c : Char) : Char :=
  match lowerPairs.find? (fun p => p.1 = c) with
  | some p => p.2
  | none => c

/-- `to_lower`: `text.lower()`. -/
def toLower (text : Str) : Str := text.map toLowerChar

/-- The zero-width / BOM / bidi-control code points deleted by
`remove_invisible_chars`. -/
def invisibleChars : Str :=
  ['\u200B', '\u200C', '\u200D', '\uFEFF', '\u202A', '\u202B', '\u202C', '\u202D', '\u202E']

/-- Membership in the class `[\x00-\x1F\x7F]` of ASCII control characters. -/
def isAsciiControl (c : Char) : Bool :=
  decide (c.toNat ≤ 0x1F) || decide (c.toNat = 0x7F)

/-- `remove_invisible_chars`: delete the invisible code points (successive
single-character `str.replace(ch, '')` calls, i.e. a filter), then
`re.sub(r'[\x00-\x1F\x7F]', '', text)`. -/
def removeInvisibleChars (text : Str) : Str :=
  (text.filter (fun c => !(invisibleChars.contains c))).filter
    (fun c => !(isAsciiControl c))

/-- The space-variant code points listed in `normalize_spaces`. -/
def spaceVariantChars : Str :=
  ['\u3000', '\u00A0', '\u2000', '\u2001', '\u2002', '\u2003', '\u2004', '\u2005',
   '\u2006', '\u2007', '\u2008', '\u2009', '\u200A', '\u202F', '\u205F', '\u2060']

/-- `normalize_spaces`: successive `str.replace(ch, ' ')` over the (pairwise
distinct, non-space) variant code points — a character-wise map. -/
def normalizeSpaces (text : Str) : Str :=
  text.map (fun c => if spaceVariantChars.contains c then ' ' else c)

/-- Character walk of `collapse_spaces`: `inRun` records whether the
previous character was a space (so further spaces of the same run are
dropped). -/
def collapseAux : Bool → Str → Str
  | _, [] => []
  | inRun, c :: cs =>
    if c = ' ' then
      if inRun then collapseAux true cs
      else ' ' :: collapseAux true cs
    else c :: collapseAux false cs

/-- `collapse_spaces`: `re.sub(r' +', ' ', text)` — every maximal run of
ASCII spaces becomes one space. -/
def collapseSpaces (text : Str) : Str := collapseAux false text

/-- The code points `str.strip()` (no argument) treats as whitespace. -/
def pyWhitespaceChars : Str :=
  ['\x09', '\x0A', '\x0B', '\x0C', '\x0D', '\x1C', '\x1D', '\x1E', '\x1F', ' ',
   '\x85', '\u00A0', '\u1680', '\u2000', '\u2001', '\u2002', '\u2003', '\u2004',
   '\u2005', '\u2006', '\u2007', '\u2008', '\u2009', '\u200A', '\u2028', '\u2029',
   '\u202F', '\u205F', '\u3000']

/-- `str.strip()`: drop leading and trailing Python whitespace. -/
def pyStrip (text : Str) : Str :=
  ((text.dropWhile (fun c => pyWhitespaceChars.contains c)).reverse.dropWhile
      (fun c => pyWhitespaceChars.contains c)).reverse

/-- `TextProcessor.process`: the seven-step normalization pipeline in source
order. -/
def process (text : Str) : Str :=
  pyStrip (collapseSpaces (normalizeSpaces (removeInvisibleChars (toLower
    (removeNonBreakingSpaces (fullwidthToHalfwidth text))))))

/-- Membership in the class `[a-zA-Z0-9` + `re.escape(custom_chars)` + `]`
built by `detect_continuous_custom_chars` / `expand_substring`. -/
def isBaseChar (custom : Str) (c : Char) : Bool :=
  (decide ('a' ≤ c) && decide (c ≤ 'z')) ||
  (decide ('A' ≤ c) && decide (c ≤ 'Z')) ||
  (decide ('0' ≤ c) && decide (c ≤ '9')) ||
  custom.contains c

/-- `re.findall` scanning for the pattern `class+` (with `class+$` when
`anchorEnd`): scan left to right accumulating the current class run in
`cur` (reversed).  A run ending at a non-class character is a complete
greedy match when there is no `$`; with `$` it matches only when it ends at
the end of the string or just before a single final newline (Python `$`
semantics — every start position inside a failing run fails the same way,
so scanning resumes after the run). -/
def scanAux (p : Char → Bool) (anchorEnd : Bool) : Str → Str → List Str
  | cur, [] => if cur.isEmpty then [] else [cur.reverse]
  | cur, c :: cs =>
    if p c then scanAux p anchorEnd (c :: cur) cs
    else if cur.isEmpty then scanAux p anchorEnd [] cs
    else if anchorEnd then
      if c = '\x0A' && cs.isEmpty then [cur.reverse]
      else scanAux p anchorEnd [] cs
    else cur.reverse :: scanAux p anchorEnd [] cs

/-- `re.findall` of `class+` (resp. `class+$` when `anchorEnd`) over a
string: all maximal class runs in order (resp. the run the `$` accepts). -/
def scanMatches (p : Char → Bool) (anchorEnd : Bool) (text : Str) : List Str :=
  scanAux p anchorEnd [] text

/-- `detect_continuous_custom_chars`: `re.findall` of `base+`, `^base+`,
`base+$` or `^base+$` over `text`, where `base` is `isBaseChar custom`.
With `^` the single attempt is anchored at position 0 (its greedy match is
the maximal prefix run); `$` accepts a match end at the end of the string
or just before a single final newline. -/
def detectContinuousCustomChars (text custom : Str)
    (startConstraint endConstraint : Bool) : List Str :=
  let p := isBaseChar custom
  if startConstraint then
    let run := text.takeWhile p
    if run.isEmpty then []
    else if endConstraint then
      let rest := text.dropWhile p
      if rest.isEmpty || rest == ['\x0A'] then [run] else []
    else [run]
  else scanMatches p endConstraint text

/-- `text.find(sub)` as an `Option`: index of the first occurrence. -/
def findSub : Str → Str → Option Nat
  | [], sub => if sub.isPrefixOf [] then some 0 else none
  | c :: t, sub =>
    if sub.isPrefixOf (c :: t) then some 0
    else (findSub t sub).map (fun n => n + 1)

/-- `text.find(sub)` with Python's `-1` for "not found". -/
def pyFind (text sub : Str) : Int :=
  match findSub text sub with
  | some n => (n : Int)
  | none => -1

/-- The leftward loop of `expand_substring`: from `start_pos`, step left
while the previous character is in the allowed class and (when a
forbidden-start set is given) not forbidden; the membership test on the
empty forbidden set is vacuous, matching the `None` pattern guard. -/
def expandLeft (text custom fs : Str) : Nat → Nat
  | 0 => 0
  | n + 1 =>
    let prev := text.getD n ' '
    if isBaseChar custom prev then
      if fs.contains prev then n + 1
      else expandLeft text custom fs n
    else n + 1

/-- The number of characters the rightward loop of `expand_substring`
accepts, walking the suffix of the text that starts at the loop's position. -/
def expandRightGo (custom fe : Str) : Str → Nat
  | [] => 0
  | c :: cs =>
    if isBaseChar custom c then
      if fe.contains c then 0
      else 1 + expandRightGo custom fe cs
    else 0

/-- The rightward loop of `expand_substring`, symmetric with
`forbidden_end_chars`: from `e`, step right while the next character is in
the allowed class and not forbidden. -/
def expandRight (text custom fe : Str) (e : Nat) : Nat :=
  e + expandRightGo custom fe (text.drop e)

/-- `expand_substring`: if `substring not in text` return it unchanged;
otherwise locate the first occurrence and extend both boundaries, returning
`text[expanded_start:expanded_end]`. -/
def expandSubstring (text sub custom fs fe : Str) : Str :=
  match findSub text sub with
  | none => sub
  | some startPos =>
    let endPos := startPos + sub.length
    let expandedStart := expandLeft text custom fs startPos
    let expandedEnd := expandRight text custom fe endPos
    (text.drop expandedStart).take (expandedEnd - expandedStart)

end TextProcessor

namespace EntityProcessor

/-- An entity span dict: `{'text', 'start_index', 'end_index', 'type'}`.
Equality is structural, matching Python `dict` equality (`!=` in
`expand_entity_without_overlap` compares values, not identities). -/
structure Span where
  text : Str
  start_index : Int
  end_index : Int
  type : Str
deriving DecidableEq

/-- The `'DETECTED'` type tag. -/
def detectedType : Str := ['D', 'E', 'T', 'E', 'C', 'T', 'E', 'D']

/-- `preprocess_query`: delegate to `TextProcessor.process`. -/
def preprocessQuery (query : Str) : Str := TextProcessor.process query

/-- `recognize_entities`: the shipped placeholder returns the empty list. -/
def recognizeEntities (processedQuery : Str) : List Span := []

/-- `correct_entity`: the shipped placeholder returns `None`. -/
def correctEntity (originalEntity expandedEntity : Str)
    (startIndex endIndex : Int) : Option Span := none

/-- `expand_entity_without_overlap`: gather the boundaries of the entities
that compare unequal to `entity`, expand the entity text, locate the
expansion's first occurrence (`str.find`, `-1` when absent), and veto the
expansion if its interval intersects any gathered boundary. -/
def expandEntityWithoutOverlap (query : Str) (entity : Span)
    (allEntities : List Span) (custom fs fe : Str) : Str :=
  let otherBoundaries :=
    (allEntities.filter (fun o => o ≠ entity)).map
      (fun o => (o.start_index, o.end_index))
  let expandedText := TextProcessor.expandSubstring query entity.text custom fs fe
  let expandedStart : Int := TextProcessor.pyFind query expandedText
  let expandedEnd : Int := expandedStart + expandedText.length
  if otherBoundaries.any
      (fun b => decide (expandedStart < b.2) && decide (expandedEnd > b.1)) then
    entity.text
  else expandedText

/-- `detect_potential_entities`: run the fallback scanner, and give each
detected text the interval of its first occurrence in the buffer
(`query.find(entity_text)`), tagged `'DETECTED'`. -/
def detectPotentialEntities (query custom : Str)
    (startConstraint endConstraint : Bool) : List Span :=
  (TextProcessor.detectContinuousCustomChars query custom startConstraint
      endConstraint).map
    (fun t =>
      let s : Int := TextProcessor.pyFind query t
      { text := t, start_index := s, end_index := s + t.length,
        type := detectedType })

/-- The per-candidate body of `process_query` step 3: expand without
overlap; keep the entity if unchanged, otherwise ask `correct_entity` and
keep its answer when present, the original entity when absent. -/
def finalizeEntity (processedQuery : Str) (allEntities : List Span)
    (custom fs fe : Str) (entity : Span) : Span :=
  let expandedText :=
    expandEntityWithoutOverlap processedQuery entity allEntities custom fs fe
  if expandedText = entity.text then entity
  else
    match correctEntity entity.text expandedText entity.start_index
        entity.end_index with
    | some corrected => corrected
    | none => entity

/-- Python's stable `entities.sort(key=lambda x: x['start_index'])`. -/
def sortByStartIndex (entities : List Span) : List Span :=
  entities.mergeSort (fun a b => decide (a.start_index ≤ b.start_index))

/-- `process_query` with the recognizer as an explicit fallible collaborator:
the Python call `self.recognize_entities(processed_query)` has no enclosing
`try`, so an exception raised there propagates to the caller before any
fallback scanning; the rest of the body is total.  `Except` makes that
call-may-raise semantics explicit (the error type is abstract: the caller
observes whatever the recognizer raised). -/
def processQueryWith {ε : Type} (recognize : Str → Except ε (List Span))
    (query custom fs fe : Str) (startConstraint endConstraint : Bool) :
    Except ε (List Span) :=
  let processedQuery := preprocessQuery query
  match recognize processedQuery with
  | Except.error e => Except.error e
  | Except.ok entities =>
    Except.ok
      (if entities.isEmpty then
        let potential :=
          detectPotentialEntities processedQuery custom startConstraint
            endConstraint
        potential.map (finalizeEntity processedQuery potential custom fs fe)
      else
        let sorted := sortByStartIndex entities
        sorted.map (finalizeEntity processedQuery sorted custom fs fe))

/-- `process_query` with the shipped collaborators (`recognize_entities`
returning `[]`, `correct_entity` returning `None`); the shipped recognizer
cannot raise, so the result is a plain list. -/
def processQuery (query custom fs fe : Str)
    (startConstraint endConstraint : Bool) : List Span :=
  let processedQuery := preprocessQuery query
  let entities := recognizeEntities processedQuery
  if entities.isEmpty then
    let potential :=
      detectPotentialEntities processedQuery custom startConstraint
        endConstraint
    potential.map (finalizeEntity processedQuery potential custom fs fe)
  else
    let sorted := sortByStartIndex entities
    sorted.map (finalizeEntity processedQuery sorted custom fs fe)

end EntityProcessor

/-! ## Specification-side vocabulary

Definitions written from the claims' words, used to state the properties
(and, for the comparative claims, to be compared with the source
embedding). -/

namespace Spec

/-- Two half-open `Int` intervals `[s1, e1)` and `[s2, e2)` intersect. -/
def intervalsIntersectB (s1 e1 s2 e2 : Int) : Bool :=
  decide (s1 < e2) && decide (e1 > s2)

/-- No two spans of the list (at distinct positions) have intersecting
`[start_index, end_index)` intervals. -/
def spansDisjointB : List EntityProcessor.Span → Bool
  | [] => true
  | x :: xs =>
    xs.all (fun y =>
      !(intervalsIntersectB x.start_index x.end_index y.start_index y.end_index)) &&
    spansDisjointB xs

/-- The forbidden-boundary property claimed of `expand_substring`: the
result is empty, or unchanged, or starts outside `forbidden_start_chars`
and ends outside `forbidden_end_chars`. -/
def forbiddenBoundaryRespectB (text sub custom fs fe : Str) : Bool :=
  let r := TextProcessor.expandSubstring text sub custom fs fe
  r.isEmpty || r == sub ||
    ((match r.head? with | some c => !(fs.contains c) | none => true) &&
     (match r.getLast? with | some c => !(fe.contains c) | none => true))

/-- Spec 4.2: all maximal runs of class characters, in left-to-right
order. -/
def specRuns (p : Char → Bool) : Str → List Str
  | [] => []
  | c :: cs =>
    if p c then ((c :: cs).takeWhile p) :: specRuns p ((c :: cs).dropWhile p)
    else specRuns p cs
termination_by l => l.length
decreasing_by
  · simp only [List.dropWhile_cons]
    split
    · exact Nat.lt_succ_of_le ((List.dropWhile_sublist _).length_le)
    · simp_all
  · simp


/-- A character the normalization pipeline can no longer change: stable
under the modelled NFKC decomposition and lowercasing, not the modelled
combining mark, and outside every removed or remapped character set. -/
def stableChar (c : Char) : Prop :=
  TextProcessor.decompChar c = [c] ∧
  TextProcessor.toLowerChar c = c ∧
  c ≠ '\u0300' ∧
  TextProcessor.nbspChars.contains c = false ∧
  TextProcessor.invisibleChars.contains c = false ∧
  TextProcessor.isAsciiControl c = false ∧
  TextProcessor.spaceVariantChars.contains c = false

/-- No two adjacent ASCII spaces. -/
def noTwoSpaces (l : Str) : Prop :=
  List.Chain' (fun a b => ¬(a = ' ' ∧ b = ' ')) l


end Spec

/-! ## Theorems -/

open TextProcessor EntityProcessor

section Helpers

/-- The shipped `correct_entity` always answers `None`, so the per-candidate
step of `process_query` always keeps the original entity dict. -/
theorem finalizeEntity_eq_id (processed : Str) (all : List Span)
    (custom fs fe : Str) (e : Span) :
    finalizeEntity processed all custom fs fe e = e := by
  simp [finalizeEntity, correctEntity]

/-- With the shipped collaborators, `process_query` is the fallback
detection pass: the recognizer returns `[]` and the per-candidate step is
the identity. -/
theorem processQuery_eq_detect (query custom fs fe : Str) (sc ec : Bool) :
    processQuery query custom fs fe sc ec =
      detectPotentialEntities (preprocessQuery query) custom sc ec := by
  unfold processQuery recognizeEntities
  simp only [List.isEmpty_nil, if_pos]
  rw [List.map_congr_left (fun e _ => finalizeEntity_eq_id _ _ _ _ _ e)]
  exact List.map_id _

end Helpers

/-- Claim C9 (confirmed): when `substring` does not occur in `text`,
`expand_substring` returns it unchanged — a defined no-op, total, not a
failure. -/
theorem C9_missing_substring_noop (text sub custom fs fe : Str)
    (h : findSub text sub = none) :
    expandSubstring text sub custom fs fe = sub := by
  simp only [expandSubstring, h]

/-- Witness for C9 at `text = "xy"`, `substring = "ab"`. -/
theorem C9_witness :
    findSub ['x', 'y'] ['a', 'b'] = none ∧
    expandSubstring ['x', 'y'] ['a', 'b'] [] [] [] = ['a', 'b'] :=
  ⟨by decide, C9_missing_substring_noop ['x', 'y'] ['a', 'b'] [] [] [] (by decide)⟩

/-- Counterexample to claim C2 as stated: in the full pipeline, NFKC (step
1) maps U+00A0 to an ASCII space before the removal step runs, so
`process "a b"` is `"a b"`, not `"ab"`. -/
theorem C2_cex : process ['a', '\u00A0', 'b'] ≠ ['a', 'b'] := by decide

/-- Claim C2 (corrected): the `remove_non_breaking_spaces` step itself
deletes U+00A0/U+2007/U+202F entirely (it is exactly the filter dropping
them, no replacement character); but in `process` the width-folding step
has already decomposed each of these code points to an ASCII space, so the
pipeline yields `"a b"` for each of them. -/
theorem C2_nbsp_removal :
    (∀ s : Str, removeNonBreakingSpaces s =
      s.filter (fun c => !(nbspChars.contains c))) ∧
    process ['a', '\u00A0', 'b'] = ['a', ' ', 'b'] ∧
    process ['a', '\u2007', 'b'] = ['a', ' ', 'b'] ∧
    process ['a', '\u202F', 'b'] = ['a', ' ', 'b'] := by
  refine ⟨fun s => ?_, by decide, by decide, by decide⟩
  simp only [removeNonBreakingSpaces, List.filter_filter]
  refine List.filter_congr (fun x _ => ?_)
  by_cases h1 : x = '\u00A0' <;> by_cases h2 : x = '\u2007' <;>
    by_cases h3 : x = '\u202F' <;> simp_all [nbspChars]

/-- Claim C6 (confirmed): the recognizer call in `process_query` is not
guarded, so a recognizer failure propagates unchanged — no fallback scan,
no partial result; and an empty successful result takes exactly the
fallback path (the same list the shipped pipeline produces). -/
theorem C6_recognizer_failure_propagates {ε : Type}
    (recognize : Str → Except ε (List Span)) (query custom fs fe : Str)
    (sc ec : Bool) :
    (∀ err, recognize (preprocessQuery query) = Except.error err →
      processQueryWith recognize query custom fs fe sc ec = Except.error err) ∧
    (recognize (preprocessQuery query) = Except.ok [] →
      processQueryWith recognize query custom fs fe sc ec =
        Except.ok (processQuery query custom fs fe sc ec)) := by
  constructor
  · intro err h
    simp only [processQueryWith, h]
  · intro h
    simp [processQueryWith, processQuery, recognizeEntities, h]

/-- Witness for C6: a recognizer that raises propagates its error on the
concrete query `"a"`; one that succeeds with `[]` falls back. -/
theorem C6_witness :
    processQueryWith (fun _ => Except.error (3 : Nat)) ['a'] [] [] [] false false
        = Except.error 3 ∧
    processQueryWith (fun _ => (Except.ok [] : Except Nat (List Span)))
        ['a'] [] [] [] false false
        = Except.ok (processQuery ['a'] [] [] [] false false) :=
  ⟨(C6_recognizer_failure_propagates (fun _ => Except.error (3 : Nat))
      ['a'] [] [] [] false false).1 3 rfl,
   (C6_recognizer_failure_propagates (fun _ => (Except.ok [] : Except Nat (List Span)))
      ['a'] [] [] [] false false).2 rfl⟩

/-- Counterexample to claim C3 as stated: with the duplicate candidate list
`[E, E]` for `E = {"ab", 0, 2}` over `"ab_x"`, the expansion `"ab_x"` has
interval `[0, 4)`, which intersects the interval `[0, 2)` of the *other
list entry* — yet the code keeps the expansion, because Python `!=` (value
inequality of dicts) excludes every candidate equal to the span, not just
the span itself. -/
theorem C3_cex :
    expandEntityWithoutOverlap ['a', 'b', '_', 'x']
      { text := ['a', 'b'], start_index := 0, end_index := 2, type := [] }
      [{ text := ['a', 'b'], start_index := 0, end_index := 2, type := [] },
       { text := ['a', 'b'], start_index := 0, end_index := 2, type := [] }]
      ['_'] [] [] = ['a', 'b', '_', 'x'] ∧
    pyFind ['a', 'b', '_', 'x']
        (expandSubstring ['a', 'b', '_', 'x'] ['a', 'b'] ['_'] [] []) < 2 ∧
    pyFind ['a', 'b', '_', 'x']
        (expandSubstring ['a', 'b', '_', 'x'] ['a', 'b'] ['_'] [] []) +
      (expandSubstring ['a', 'b', '_', 'x'] ['a', 'b'] ['_'] [] []).length > 0 := by
  refine ⟨by decide, by decide, by decide⟩

/-- Claim C3 (corrected): the overlap veto fires against any candidate that
compares *unequal* to the span (Python dict `!=`, i.e. every candidate not
structurally equal to it — not merely "except the span itself"): if the
expanded text's located interval intersects such a candidate's
`[start_index, end_index)`, the original span text is returned. -/
theorem C3_overlap_veto (query : Str) (entity : Span) (allEntities : List Span)
    (custom fs fe : Str) (o : Span) (ho : o ∈ allEntities) (hne : o ≠ entity)
    (h1 : pyFind query (expandSubstring query entity.text custom fs fe) <
      o.end_index)
    (h2 : pyFind query (expandSubstring query entity.text custom fs fe) +
      (expandSubstring query entity.text custom fs fe).length > o.start_index) :
    expandEntityWithoutOverlap query entity allEntities custom fs fe =
      entity.text := by
  unfold expandEntityWithoutOverlap
  rw [if_pos]
  rw [List.any_eq_true]
  refine ⟨(o.start_index, o.end_index), List.mem_map_of_mem _ ?_, ?_⟩
  · exact List.mem_filter.mpr ⟨ho, by simp [hne]⟩
  · simp only [Bool.and_eq_true, decide_eq_true_eq]
    exact ⟨h1, h2⟩

/-- Witness for C3: the spec's own scenario — candidates `{"AB",0,2}` and
`{"CD",3,5}` over `"AB_CD"` with `custom_chars = "_"`: the expansion
`"AB_CD"` reaches `[0,5)`, collides with `[3,5)`, and `"AB"` is kept. -/
theorem C3_witness :
    expandEntityWithoutOverlap ['A', 'B', '_', 'C', 'D']
      { text := ['A', 'B'], start_index := 0, end_index := 2, type := [] }
      [{ text := ['A', 'B'], start_index := 0, end_index := 2, type := [] },
       { text := ['C', 'D'], start_index := 3, end_index := 5, type := [] }]
      ['_'] [] [] = ['A', 'B'] :=
  C3_overlap_veto ['A', 'B', '_', 'C', 'D']
    { text := ['A', 'B'], start_index := 0, end_index := 2, type := [] }
    [{ text := ['A', 'B'], start_index := 0, end_index := 2, type := [] },
     { text := ['C', 'D'], start_index := 3, end_index := 5, type := [] }]
    ['_'] [] []
    { text := ['C', 'D'], start_index := 3, end_index := 5, type := [] }
    (by decide) (by decide) (by decide) (by decide)

/-- Counterexample to claim C1 as stated: on the query `"xab ab"` the
fallback scanner detects the runs `"xab"` and `"ab"`, and
`detect_potential_entities` indexes `"ab"` at its *first* occurrence —
inside `"xab"` — so the resolved list carries the intersecting intervals
`[0, 3)` and `[1, 3)`. -/
theorem C1_cex :
    Spec.spansDisjointB (processQuery ['x', 'a', 'b', ' ', 'a', 'b'] [] [] []
      false false) = false := by decide

/-- Claim C1 (corrected): with the shipped collaborators the resolution
pass returns the candidate spans unchanged, so the final list is free of
intersecting `[start_index, end_index)` intervals exactly when the
fallback scanner's candidate list is; the scanner itself can emit
intersecting spans when a detected text first occurs inside an earlier
run. -/
theorem C1_overlap_safety (query custom fs fe : Str) (sc ec : Bool)
    (h : Spec.spansDisjointB
      (detectPotentialEntities (preprocessQuery query) custom sc ec) = true) :
    Spec.spansDisjointB (processQuery query custom fs fe sc ec) = true := by
  rw [processQuery_eq_detect]
  exact h

/-- Witness for C1 on `"ab!cd"`: the two detected runs have disjoint
intervals, and so does the resolved list. -/
theorem C1_witness :
    Spec.spansDisjointB
        (detectPotentialEntities (preprocessQuery ['a', 'b', '!', 'c', 'd'])
          [] false false) = true ∧
    Spec.spansDisjointB
        (processQuery ['a', 'b', '!', 'c', 'd'] [] [] [] false false) = true :=
  ⟨by decide, C1_overlap_safety ['a', 'b', '!', 'c', 'd'] [] [] [] false false
    (by decide)⟩

/-- Claim C10 (confirmed): with the shipped collaborators — recognizer
returning `[]`, corrector returning `None` — `process_query` returns
exactly `detect_potential_entities` of the normalized query, every span
unchanged and tagged `'DETECTED'`: expansion and correction never alter an
output span. -/
theorem C10_shipped_refinement (query custom fs fe : Str) (sc ec : Bool) :
    processQuery query custom fs fe sc ec =
      detectPotentialEntities (preprocessQuery query) custom sc ec ∧
    ∀ e ∈ processQuery query custom fs fe sc ec, e.type = detectedType := by
  refine ⟨processQuery_eq_detect query custom fs fe sc ec, fun e he => ?_⟩
  rw [processQuery_eq_detect] at he
  unfold detectPotentialEntities at he
  obtain ⟨t, _, rfl⟩ := List.mem_map.mp he
  rfl

section ExpanderLemmas

/-- Splitting a `take` at an intermediate index. -/
theorem take_split {α : Type} (l : List α) (a b : Nat) (hab : a ≤ b) :
    l.take b = l.take a ++ (l.drop a).take (b - a) := by
  conv_lhs => rw [← List.take_append_drop a (l.take b)]
  rw [List.take_take, min_eq_left hab, List.drop_take]

/-- `find` soundness: the reported index is inside the text and the
substring occurs there. -/
theorem findSub_sound (sub : Str) :
    ∀ (text : Str) (p : Nat), findSub text sub = some p →
      p ≤ text.length ∧ sub <+: text.drop p := by
  intro text
  induction text with
  | nil =>
    intro p h
    simp only [findSub] at h
    split at h
    · cases h
      exact ⟨Nat.le_refl _, List.isPrefixOf_iff_prefix.mp (by assumption)⟩
    · cases h
  | cons c t ih =>
    intro p h
    simp only [findSub] at h
    split at h
    · cases h
      exact ⟨Nat.zero_le _, List.isPrefixOf_iff_prefix.mp (by assumption)⟩
    · obtain ⟨q, hq, rfl⟩ := Option.map_eq_some'.mp h
      obtain ⟨h1, h2⟩ := ih q hq
      exact ⟨Nat.succ_le_succ h1, h2⟩

/-- The leftward loop never moves right. -/
theorem expandLeft_le (text custom fs : Str) :
    ∀ p, expandLeft text custom fs p ≤ p := by
  intro p
  induction p with
  | zero => simp [expandLeft]
  | succ n ih =>
    simp only [expandLeft]
    split
    · split
      · exact Nat.le_refl _
      · exact Nat.le_succ_of_le ih
    · exact Nat.le_refl _

/-- When the leftward loop moved, the character at the new start position
was accepted by the loop: class-eligible and outside the forbidden-start
set. -/
theorem expandLeft_moved (text custom fs : Str) :
    ∀ p, expandLeft text custom fs p < p →
      isBaseChar custom (text.getD (expandLeft text custom fs p) ' ') = true ∧
      fs.contains (text.getD (expandLeft text custom fs p) ' ') = false := by
  intro p
  induction p with
  | zero => intro h; cases h
  | succ n ih =>
    intro h
    by_cases hbase : isBaseChar custom (text.getD n ' ') = true
    · by_cases hforb : fs.contains (text.getD n ' ') = true
      · have hred : expandLeft text custom fs (n + 1) = n + 1 := by
          simp only [expandLeft]
          rw [if_pos hbase, if_pos hforb]
        rw [hred] at h
        exact absurd h (Nat.lt_irrefl _)
      · have hred : expandLeft text custom fs (n + 1) =
            expandLeft text custom fs n := by
          simp only [expandLeft]
          rw [if_pos hbase, if_neg hforb]
        rw [hred] at h ⊢
        rcases Nat.lt_or_ge (expandLeft text custom fs n) n with hlt | hge
        · exact ih hlt
        · have heq : expandLeft text custom fs n = n :=
            Nat.le_antisymm (expandLeft_le text custom fs n) hge
          rw [heq]
          exact ⟨hbase, Bool.eq_false_iff.mpr hforb⟩
    · have hred : expandLeft text custom fs (n + 1) = n + 1 := by
        simp only [expandLeft]
        rw [if_neg hbase]
      rw [hred] at h
      exact absurd h (Nat.lt_irrefl _)

/-- The rightward walk accepts at most the whole suffix. -/
theorem expandRightGo_le (custom fe : Str) :
    ∀ u : Str, expandRightGo custom fe u ≤ u.length := by
  intro u
  induction u with
  | nil => simp [expandRightGo]
  | cons c cs ih =>
    simp only [expandRightGo]
    split
    · split
      · simp
      · simpa [Nat.add_comm] using Nat.succ_le_succ ih
    · simp

/-- When the rightward walk accepted at least one character, its last
accepted character was class-eligible and outside the forbidden-end set. -/
theorem expandRightGo_last (custom fe : Str) :
    ∀ u : Str, 0 < expandRightGo custom fe u →
      ∀ c, u[expandRightGo custom fe u - 1]? = some c →
        isBaseChar custom c = true ∧ fe.contains c = false := by
  intro u
  induction u with
  | nil => intro h; simp [expandRightGo] at h
  | cons d cs ih =>
    intro h c hc
    by_cases hbase : isBaseChar custom d = true
    · by_cases hforb : fe.contains d = true
      · have hred : expandRightGo custom fe (d :: cs) = 0 := by
          simp only [expandRightGo]
          rw [if_pos hbase, if_pos hforb]
        rw [hred] at h
        exact absurd h (Nat.lt_irrefl _)
      · have hred : expandRightGo custom fe (d :: cs) =
            1 + expandRightGo custom fe cs := by
          simp only [expandRightGo]
          rw [if_pos hbase, if_neg hforb]
        rw [hred] at hc
        rcases Nat.eq_zero_or_pos (expandRightGo custom fe cs) with h0 | hpos
        · rw [h0] at hc
          norm_num at hc
          rw [← hc]
          exact ⟨hbase, Bool.eq_false_iff.mpr hforb⟩
        · have heq : 1 + expandRightGo custom fe cs - 1 =
              (expandRightGo custom fe cs - 1) + 1 := by omega
          rw [heq, List.getElem?_cons_succ] at hc
          exact ih hpos c hc
    · have hred : expandRightGo custom fe (d :: cs) = 0 := by
        simp only [expandRightGo]
        rw [if_neg hbase]
      rw [hred] at h
      exact absurd h (Nat.lt_irrefl _)

/-- The rightward loop never moves left, and stays inside the text. -/
theorem expandRight_bounds (text custom fe : Str) (e : Nat)
    (he : e ≤ text.length) :
    e ≤ expandRight text custom fe e ∧
    expandRight text custom fe e ≤ text.length := by
  refine ⟨Nat.le_add_right _ _, ?_⟩
  have := expandRightGo_le custom fe (text.drop e)
  simp only [List.length_drop] at this
  unfold expandRight
  omega

end ExpanderLemmas

/-- Claim C7 (confirmed): when `substring` occurs in `text` (first
occurrence at `p`), the expansion result is the contiguous slice
`text[expanded_start:expanded_end]` with `expanded_start ≤ p` and
`p + substring.length ≤ expanded_end`; in particular the original
substring is a substring of the result. -/
theorem C7_expansion_monotone (text sub custom fs fe : Str) (p : Nat)
    (h : findSub text sub = some p) :
    expandLeft text custom fs p ≤ p ∧
    p + sub.length ≤ expandRight text custom fe (p + sub.length) ∧
    expandSubstring text sub custom fs fe =
      (text.drop (expandLeft text custom fs p)).take
        (expandRight text custom fe (p + sub.length) -
          expandLeft text custom fs p) ∧
    sub <:+: expandSubstring text sub custom fs fe := by
  obtain ⟨hple, hpre⟩ := findSub_sound sub text p h
  have hslice : expandSubstring text sub custom fs fe =
      (text.drop (expandLeft text custom fs p)).take
        (expandRight text custom fe (p + sub.length) -
          expandLeft text custom fs p) := by
    simp only [expandSubstring, h]
  refine ⟨expandLeft_le text custom fs p, Nat.le_add_right _ _, hslice, ?_⟩
  set L := expandLeft text custom fs p with hL
  set R := expandRight text custom fe (p + sub.length) with hR
  have hLp : L ≤ p := expandLeft_le text custom fs p
  have hsublen : sub.length ≤ text.length - p := by
    have := hpre.length_le
    simpa [List.length_drop] using this
  have hplen : p + sub.length ≤ text.length := by omega
  obtain ⟨hRge, hRle⟩ := expandRight_bounds text custom fe (p + sub.length) hplen
  have hsub_take : sub = (text.drop p).take sub.length :=
    List.prefix_iff_eq_take.mp hpre
  have hdecomp : expandSubstring text sub custom fs fe =
      (text.drop L).take (p - L) ++
        (sub ++ (text.drop (p + sub.length)).take (R - (p + sub.length))) := by
    rw [hslice, take_split (text.drop L) (p - L) (R - L) (by omega)]
    have h1 : (text.drop L).drop (p - L) = text.drop p := by
      rw [List.drop_drop]
      congr 1
      omega
    have h2 : R - L - (p - L) = R - p := by omega
    rw [h1, h2, take_split (text.drop p) sub.length (R - p) (by omega)]
    have h3 : (text.drop p).drop sub.length = text.drop (p + sub.length) := by
      rw [List.drop_drop, Nat.add_comm]
    have h4 : R - p - sub.length = R - (p + sub.length) := by omega
    rw [h3, h4, ← hsub_take]
  exact ⟨(text.drop L).take (p - L),
    (text.drop (p + sub.length)).take (R - (p + sub.length)),
    by rw [hdecomp, List.append_assoc]⟩

/-- Witness for C7 at `text = "xab"`, `substring = "a"`: the result is the
slice `[0, 3)` and `"a"` is a substring of it. -/
theorem C7_witness :
    expandLeft ['x', 'a', 'b'] [] [] 1 ≤ 1 ∧
    1 + (['a'] : Str).length ≤
      expandRight ['x', 'a', 'b'] [] [] (1 + (['a'] : Str).length) ∧
    expandSubstring ['x', 'a', 'b'] ['a'] [] [] [] =
      ((['x', 'a', 'b'] : Str).drop (expandLeft ['x', 'a', 'b'] [] [] 1)).take
        (expandRight ['x', 'a', 'b'] [] [] (1 + (['a'] : Str).length) -
          expandLeft ['x', 'a', 'b'] [] [] 1) ∧
    (['a'] : Str) <:+: expandSubstring ['x', 'a', 'b'] ['a'] [] [] [] :=
  C7_expansion_monotone ['x', 'a', 'b'] ['a'] [] [] [] 1 (by decide)

/-- Counterexample to claim C5 as stated: `expand("-abc", "-ab",
forbidden_start="-")` grows only rightward to `"-abc"` — non-empty and
different from the input — yet its first character `-` is in
`forbidden_start_chars`, because the loops only constrain characters they
add, never the original substring's own boundary characters. -/
theorem C5_cex :
    Spec.forbiddenBoundaryRespectB ['-', 'a', 'b', 'c'] ['-', 'a', 'b'] []
      ['-'] [] = false := by decide

/-- Claim C5 (corrected): the forbidden sets constrain the characters the
expansion *adds*: when the left boundary moved, the result's first
character is outside `forbidden_start_chars`; when the right boundary
moved, the result's last character is outside `forbidden_end_chars`.  (A
boundary character inherited unchanged from the substring is not
checked.) -/
theorem C5_forbidden_boundary (text sub custom fs fe : Str) (p : Nat)
    (h : findSub text sub = some p) :
    (expandLeft text custom fs p < p →
      ∀ c, (expandSubstring text sub custom fs fe).head? = some c →
        fs.contains c = false) ∧
    (p + sub.length < expandRight text custom fe (p + sub.length) →
      ∀ c, (expandSubstring text sub custom fs fe).getLast? = some c →
        fe.contains c = false) := by
  obtain ⟨hple, hpre⟩ := findSub_sound sub text p h
  set L := expandLeft text custom fs p with hL
  set R := expandRight text custom fe (p + sub.length) with hR
  have hslice : expandSubstring text sub custom fs fe =
      (text.drop L).take (R - L) := by
    simp only [expandSubstring, h]
  have hLp : L ≤ p := expandLeft_le text custom fs p
  have hsublen : sub.length ≤ text.length - p := by
    have := hpre.length_le
    simpa [List.length_drop] using this
  have hplen : p + sub.length ≤ text.length := by omega
  obtain ⟨hRge, hRle⟩ := expandRight_bounds text custom fe (p + sub.length) hplen
  have hRdef : R = (p + sub.length) +
      expandRightGo custom fe (text.drop (p + sub.length)) := rfl
  constructor
  · intro hlt c hc
    rw [hslice, List.head?_take, if_neg (by omega), List.head?_drop] at hc
    obtain ⟨hb, hf⟩ := expandLeft_moved text custom fs p hlt
    rw [List.getD_eq_getElem?_getD, hc] at hf
    simpa using hf
  · intro hlt c hc
    have hrlen : ((text.drop L).take (R - L)).length = R - L := by
      rw [List.length_take, List.length_drop]
      omega
    rw [hslice, List.getLast?_eq_getElem?, hrlen, List.getElem?_take,
      if_pos (by omega), List.getElem?_drop] at hc
    have hidx : L + (R - L - 1) = (p + sub.length) +
        (expandRightGo custom fe (text.drop (p + sub.length)) - 1) := by
      omega
    rw [hidx, ← List.getElem?_drop] at hc
    have hgo : 0 < expandRightGo custom fe (text.drop (p + sub.length)) := by
      omega
    exact (expandRightGo_last custom fe _ hgo c hc).2

/-- Witness for C5 on `text = "xaby"`, `substring = "ab"`, forbidden sets
`{"q"}`: both boundaries moved, and the added boundary characters avoid
the forbidden sets. -/
theorem C5_witness :
    (expandLeft ['x', 'a', 'b', 'y'] [] ['q'] 1 < 1 →
      ∀ c, (expandSubstring ['x', 'a', 'b', 'y'] ['a', 'b'] [] ['q'] ['q']).head?
          = some c → (['q'] : Str).contains c = false) ∧
    (1 + (['a', 'b'] : Str).length <
        expandRight ['x', 'a', 'b', 'y'] [] ['q'] (1 + (['a', 'b'] : Str).length) →
      ∀ c, (expandSubstring ['x', 'a', 'b', 'y'] ['a', 'b'] [] ['q'] ['q']).getLast?
          = some c → (['q'] : Str).contains c = false) :=
  C5_forbidden_boundary ['x', 'a', 'b', 'y'] ['a', 'b'] [] ['q'] ['q'] 1
    (by decide)

section ScannerLemmas

/-- The unanchored scan is the maximal-run decomposition: with an empty
accumulator it produces exactly the spec's maximal runs, and with a pending
run `cur` it completes that run first. -/
theorem scanAux_false_spec (p : Char → Bool) :
    ∀ l : Str, (scanAux p false [] l = Spec.specRuns p l) ∧
      ∀ cur : Str, cur ≠ [] → scanAux p false cur l =
        (cur.reverse ++ l.takeWhile p) :: Spec.specRuns p (l.dropWhile p) := by
  intro l
  induction l with
  | nil =>
    refine ⟨by simp [scanAux, Spec.specRuns], fun cur hcur => ?_⟩
    simp [scanAux, Spec.specRuns, hcur]
  | cons c cs ih =>
    constructor
    · by_cases hc : p c = true
      · have h1 : scanAux p false [] (c :: cs) = scanAux p false [c] cs := by
          simp only [scanAux]
          rw [if_pos hc]
        rw [h1, ih.2 [c] (by simp)]
        conv_rhs => rw [Spec.specRuns]
        rw [if_pos hc, List.takeWhile_cons_of_pos hc,
          List.dropWhile_cons_of_pos hc]
        simp
      · have h1 : scanAux p false [] (c :: cs) = scanAux p false [] cs := by
          simp only [scanAux]
          rw [if_neg hc]
          simp
        rw [h1, ih.1]
        conv_rhs => rw [Spec.specRuns]
        rw [if_neg hc]
    · intro cur hcur
      by_cases hc : p c = true
      · have h1 : scanAux p false cur (c :: cs) =
            scanAux p false (c :: cur) cs := by
          simp only [scanAux]
          rw [if_pos hc]
        rw [h1, ih.2 (c :: cur) (by simp), List.takeWhile_cons_of_pos hc,
          List.dropWhile_cons_of_pos hc]
        simp
      · have h1 : scanAux p false cur (c :: cs) =
            cur.reverse :: scanAux p false [] cs := by
          simp only [scanAux]
          rw [if_neg hc]
          simp [hcur]
        rw [h1, ih.1, List.takeWhile_cons_of_neg hc,
          List.dropWhile_cons_of_neg hc]
        conv_rhs => rw [Spec.specRuns]
        rw [if_neg hc]
        simp

/-- Every match the `$`-anchored scan emits is a non-empty class run that
ends at the end of the scanned text or just before its single final
newline. -/
theorem scanAux_true_mem (p : Char → Bool) :
    ∀ (l cur : Str), cur.all p = true →
      ∀ r ∈ scanAux p true cur l, r ≠ [] ∧ r.all p = true ∧
        (r <:+ (cur.reverse ++ l) ∨ r ++ ['\x0A'] <:+ (cur.reverse ++ l)) := by
  intro l
  induction l with
  | nil =>
    intro cur hcur r hr
    simp only [scanAux] at hr
    by_cases hcure : cur.isEmpty = true
    · rw [if_pos hcure] at hr
      cases hr
    · rw [if_neg hcure, List.mem_singleton] at hr
      subst hr
      have hcne : cur ≠ [] := fun h => hcure (by simp [h])
      refine ⟨by simpa using hcne, ?_, Or.inl (by simp)⟩
      simpa using hcur
  | cons c cs ih =>
    intro cur hcur r hr
    have hsfx : ∀ x : Str, x <:+ cs → x <:+ cur.reverse ++ c :: cs := fun x hx =>
      hx.trans ((List.suffix_cons c cs).trans (List.suffix_append _ _))
    by_cases hc : p c = true
    · have h1 : scanAux p true cur (c :: cs) = scanAux p true (c :: cur) cs := by
        simp only [scanAux]
        rw [if_pos hc]
      rw [h1] at hr
      have hall : (c :: cur).all p = true := by
        simp only [List.all_cons, hc, Bool.true_and]
        exact hcur
      obtain ⟨h2, h3, h4⟩ := ih (c :: cur) hall r hr
      have hrw : (c :: cur).reverse ++ cs = cur.reverse ++ c :: cs := by simp
      rw [hrw] at h4
      exact ⟨h2, h3, h4⟩
    · by_cases hcure : cur.isEmpty = true
      · have h1 : scanAux p true cur (c :: cs) = scanAux p true [] cs := by
          simp only [scanAux]
          rw [if_neg hc, if_pos hcure]
        rw [h1] at hr
        obtain ⟨h2, h3, h4⟩ := ih [] rfl r hr
        simp only [List.reverse_nil, List.nil_append] at h4
        rcases h4 with h4 | h4
        · exact ⟨h2, h3, Or.inl (hsfx r h4)⟩
        · exact ⟨h2, h3, Or.inr (hsfx _ h4)⟩
      · by_cases hnl : (c = '\x0A' && cs.isEmpty) = true
        · have h1 : scanAux p true cur (c :: cs) = [cur.reverse] := by
            simp only [scanAux]
            rw [if_neg hc, if_neg hcure, if_pos trivial, if_pos hnl]
          rw [h1, List.mem_singleton] at hr
          subst hr
          have hcne : cur ≠ [] := fun h => hcure (by simp [h])
          simp only [Bool.and_eq_true, decide_eq_true_eq,
            List.isEmpty_iff] at hnl
          obtain ⟨hceq, hcse⟩ := hnl
          refine ⟨by simpa using hcne, by simpa using hcur, Or.inr ?_⟩
          rw [hcse, hceq]
        · have h1 : scanAux p true cur (c :: cs) = scanAux p true [] cs := by
            simp only [scanAux]
            rw [if_neg hc, if_neg hcure, if_pos trivial, if_neg hnl]
          rw [h1] at hr
          obtain ⟨h2, h3, h4⟩ := ih [] rfl r hr
          simp only [List.reverse_nil, List.nil_append] at h4
          rcases h4 with h4 | h4
          · exact ⟨h2, h3, Or.inl (hsfx r h4)⟩
          · exact ⟨h2, h3, Or.inr (hsfx _ h4)⟩

end ScannerLemmas

/-- Counterexample to claim C8 as stated: with `end_constraint` on the
buffer `"ab\n"`, the claim admits only runs anchored at the buffer's end —
there is none, since the last character is a newline — yet the code
returns `["ab"]`, because Python's `$` also matches just before a final
newline. -/
theorem C8_cex :
    detectContinuousCustomChars ['a', 'b', '\x0A'] [] false true
      = [['a', 'b']] ∧
    ¬((['a', 'b'] : Str) <:+ ['a', 'b', '\x0A']) :=
  ⟨by decide, by decide⟩

/-- Claim C8 (corrected): `detect_continuous_custom_chars` finds maximal
runs of `{letter, digit} ∪ custom_chars`: with no constraints it returns
every maximal run in left-to-right order (in particular the spec's
`"order_A123-9!"` scenario); with `start_constraint` only the run anchored
at position 0; with `end_constraint` only a run anchored at the buffer's
end **or just before a single final newline** (Python `$` semantics — the
amendment); with both, the entire buffer (again up to a final newline)
must be one run. -/
theorem C8_runs (text custom : Str) :
    detectContinuousCustomChars text custom false false =
      Spec.specRuns (isBaseChar custom) text ∧
    (∀ r ∈ detectContinuousCustomChars text custom false true,
      r ≠ [] ∧ r.all (isBaseChar custom) = true ∧
        (r <:+ text ∨ r ++ ['\x0A'] <:+ text)) ∧
    detectContinuousCustomChars text custom true false =
      (if (text.takeWhile (isBaseChar custom)).isEmpty then []
       else [text.takeWhile (isBaseChar custom)]) ∧
    (∀ r ∈ detectContinuousCustomChars text custom true true,
      r = text ∨ r ++ ['\x0A'] = text) ∧
    detectContinuousCustomChars
      ['o', 'r', 'd', 'e', 'r', '_', 'A', '1', '2', '3', '-', '9', '!']
      ['-', '_'] false false
      = [['o', 'r', 'd', 'e', 'r', '_', 'A', '1', '2', '3', '-', '9']] := by
  refine ⟨?_, ?_, ?_, ?_, by decide⟩
  · have h := (scanAux_false_spec (isBaseChar custom) text).1
    simpa [detectContinuousCustomChars, scanMatches] using h
  · intro r hr
    simp only [detectContinuousCustomChars, Bool.false_eq_true, if_false,
      scanMatches] at hr
    have h := scanAux_true_mem (isBaseChar custom) text [] rfl r hr
    simpa using h
  · simp [detectContinuousCustomChars]
  · intro r hr
    simp only [detectContinuousCustomChars, if_true] at hr
    split at hr
    · cases hr
    · split at hr
      · rw [List.mem_singleton] at hr
        subst hr
        rename_i hrest
        rcases Bool.or_eq_true_iff.mp hrest with h | h
        · left
          have := List.takeWhile_append_dropWhile (isBaseChar custom) text
          rw [List.isEmpty_iff.mp h, List.append_nil] at this
          exact this
        · right
          have := List.takeWhile_append_dropWhile (isBaseChar custom) text
          rw [(by simpa using h :
            text.dropWhile (isBaseChar custom) = ['\x0A'])] at this
          exact this
      · cases hr

section NormalizerLemmas

/-- The fullwidth table's outputs (halfwidth ASCII) are themselves stable
under decomposition and are not the modelled combining mark. -/
theorem fwTable_out : ∀ pr ∈ fwTable,
    decompChar pr.2 = [pr.2] ∧ pr.2 ≠ '\u0300' := by decide

/-- The lowercase table's outputs are stable under decomposition and
lowercasing, are not the combining mark, and are not no-break spaces. -/
theorem lowerPairs_out : ∀ pr ∈ lowerPairs,
    decompChar pr.2 = [pr.2] ∧ toLowerChar pr.2 = pr.2 ∧
    pr.2 ≠ '\u0300' ∧ nbspChars.contains pr.2 = false := by decide

/-- Every character produced by the modelled decomposition is itself
decomposition-stable, and is the combining mark only if the input was. -/
theorem decompChar_props (x c : Char) (hc : c ∈ decompChar x) :
    decompChar c = [c] ∧ (x ≠ '\u0300' → c ≠ '\u0300') := by
  unfold decompChar at hc
  cases hfind : fwTable.find? (fun p => p.1 = x) with
  | some pr =>
    simp only [hfind] at hc
    rw [List.mem_singleton] at hc
    subst hc
    have hpr := List.mem_of_find?_eq_some hfind
    exact ⟨(fwTable_out pr hpr).1, fun _ => (fwTable_out pr hpr).2⟩
  | none =>
    simp only [hfind] at hc
    by_cases hsp : nfkcSpaceChars.contains x = true
    · rw [if_pos hsp, List.mem_singleton] at hc
      subst hc
      exact ⟨by decide, fun _ => by decide⟩
    · rw [if_neg hsp, List.mem_singleton] at hc
      subst hc
      refine ⟨?_, fun h => h⟩
      unfold decompChar
      rw [hfind, if_neg hsp]

/-- Lowercasing is idempotent in the model. -/
theorem toLowerChar_idem (c : Char) :
    toLowerChar (toLowerChar c) = toLowerChar c := by
  cases hfind : lowerPairs.find? (fun p => p.1 = c) with
  | none =>
    have h1 : toLowerChar c = c := by
      unfold toLowerChar
      rw [hfind]
    rw [h1, h1]
  | some pr =>
    have h1 : toLowerChar c = pr.2 := by
      unfold toLowerChar
      rw [hfind]
    rw [h1]
    exact (lowerPairs_out pr (List.mem_of_find?_eq_some hfind)).2.1

/-- A lowercased character either is unchanged or is a table output. -/
theorem toLowerChar_cases (c : Char) :
    toLowerChar c = c ∨ ∃ pr ∈ lowerPairs, toLowerChar c = pr.2 := by
  cases hfind : lowerPairs.find? (fun p => p.1 = c) with
  | none =>
    left
    unfold toLowerChar
    rw [hfind]
  | some pr =>
    right
    refine ⟨pr, List.mem_of_find?_eq_some hfind, ?_⟩
    unfold toLowerChar
    rw [hfind]

/-- `flatMap` over a character-stable string is the identity. -/
theorem flatMap_id_of (f : Char → Str) :
    ∀ l : Str, (∀ c ∈ l, f c = [c]) → l.flatMap f = l := by
  intro l
  induction l with
  | nil => intro _; rfl
  | cons c cs ih =>
    intro h
    rw [List.flatMap_cons, h c (List.mem_cons_self c cs),
      ih (fun d hd => h d (List.mem_cons_of_mem c hd))]
    rfl

/-- `map` over a pointwise-fixed string is the identity. -/
theorem map_id_of (f : Char → Char) :
    ∀ l : Str, (∀ c ∈ l, f c = c) → l.map f = l := by
  intro l h
  rw [List.map_congr_left h]
  simp

/-- Pairs never compose when the second component is not the modelled
combining mark. -/
theorem composePair_none (a b : Char) (hb : b ≠ '\u0300') :
    composePair a b = none := by
  unfold composePair
  rw [if_neg hb]

/-- The composition walk is the identity on mark-free strings. -/
theorem composeFold_id :
    ∀ (rest : Str) (a : Char), (∀ c ∈ rest, c ≠ '\u0300') →
      composeFold a rest = a :: rest := by
  intro rest
  induction rest with
  | nil => intro a _; rfl
  | cons b r ih =>
    intro a h
    unfold composeFold
    rw [composePair_none a b (h b (List.mem_cons_self b r))]
    rw [ih b (fun c hc => h c (List.mem_cons_of_mem b hc))]

/-- The composition pass is the identity on mark-free strings. -/
theorem composePass_id (l : Str) (h : ∀ c ∈ l, c ≠ '\u0300') :
    composePass l = l := by
  cases l with
  | nil => rfl
  | cons a rest =>
    unfold composePass
    exact composeFold_id rest a (fun c hc => h c (List.mem_cons_of_mem a hc))

end NormalizerLemmas

section PipelineLemmas

/-- Every character of the pipeline state after space normalization (on a
mark-free input) is stable: the remaining steps, and a whole second pass,
can no longer change it. -/
theorem stage_chars (s : Str) (hs : ∀ c ∈ s, c ≠ '\u0300') :
    ∀ c ∈ normalizeSpaces (removeInvisibleChars (toLower
      (removeNonBreakingSpaces (s.flatMap decompChar)))),
      Spec.stableChar c := by
  intro c hc
  unfold normalizeSpaces at hc
  obtain ⟨d, hd, hcd⟩ := List.mem_map.mp hc
  by_cases hv : spaceVariantChars.contains d = true
  · rw [if_pos hv] at hcd
    subst hcd
    exact ⟨by decide, by decide, by decide, by decide, by decide, by decide,
      by decide⟩
  · rw [if_neg hv] at hcd
    subst hcd
    unfold removeInvisibleChars at hd
    obtain ⟨hd1, hctl⟩ := List.mem_filter.mp hd
    obtain ⟨hd2, hinv⟩ := List.mem_filter.mp hd1
    unfold toLower at hd2
    obtain ⟨e, he, hde⟩ := List.mem_map.mp hd2
    unfold removeNonBreakingSpaces at he
    obtain ⟨he1, hne3⟩ := List.mem_filter.mp he
    obtain ⟨he2, hne2⟩ := List.mem_filter.mp he1
    obtain ⟨he3, hne1⟩ := List.mem_filter.mp he2
    rw [decide_eq_true_eq] at hne1 hne2 hne3
    obtain ⟨x, hx, hex⟩ := List.mem_flatMap.mp he3
    obtain ⟨hedec, hegrave⟩ := decompChar_props x e hex
    have hegrave' : e ≠ '\u0300' := hegrave (hs x hx)
    have hctl' : isAsciiControl d = false := by
      simpa using hctl
    have hinv' : invisibleChars.contains d = false := by
      simpa using hinv
    have hvar' : spaceVariantChars.contains d = false :=
      Bool.eq_false_iff.mpr hv
    have henbsp : nbspChars.contains e = false := by
      simp only [nbspChars, List.elem_eq_mem, List.mem_cons,
        List.not_mem_nil, or_false, Bool.decide_or, Bool.or_eq_false_iff,
        decide_eq_false_iff_not]
      exact ⟨hne1, hne2, hne3⟩
    rcases toLowerChar_cases e with hcase | ⟨pr, hpr, hout⟩
    · -- lowercasing left `e` unchanged: `d = e`
      rw [hcase] at hde
      subst hde
      refine ⟨hedec, ?_, hegrave', henbsp, hinv', hctl', hvar'⟩
      rw [← hcase]
      exact toLowerChar_idem e
    · -- lowercasing produced a table output
      rw [hout] at hde
      subst hde
      obtain ⟨h1, h2, h3, h4⟩ := lowerPairs_out pr hpr
      exact ⟨h1, h2, h3, h4, hinv', hctl', hvar'⟩

/-- On a string of stable characters the first five pipeline steps are the
identity. -/
theorem inner_fixed (o : Str) (ho : ∀ c ∈ o, Spec.stableChar c) :
    normalizeSpaces (removeInvisibleChars (toLower
      (removeNonBreakingSpaces (fullwidthToHalfwidth o)))) = o := by
  have hnb : ∀ c ∈ o, nbspChars.contains c = false := fun c hc =>
    (ho c hc).2.2.2.1
  have hnb3 : ∀ c ∈ o, c ≠ '\u00A0' ∧ c ≠ '\u2007' ∧ c ≠ '\u202F' := by
    intro c hc
    have := hnb c hc
    simp only [nbspChars, List.elem_eq_mem, List.mem_cons,
      List.not_mem_nil, or_false, Bool.decide_or, Bool.or_eq_false_iff,
      decide_eq_false_iff_not] at this
    exact this
  have h1 : fullwidthToHalfwidth o = o := by
    unfold fullwidthToHalfwidth
    rw [flatMap_id_of decompChar o (fun c hc => (ho c hc).1)]
    exact composePass_id o (fun c hc => (ho c hc).2.2.1)
  rw [h1]
  have e1 : o.filter (fun c => c ≠ '\u00A0') = o :=
    List.filter_eq_self.mpr (fun a ha => by
      simpa using (hnb3 a ha).1)
  have e2 : o.filter (fun c => c ≠ '\u2007') = o :=
    List.filter_eq_self.mpr (fun a ha => by
      simpa using (hnb3 a ha).2.1)
  have e3 : o.filter (fun c => c ≠ '\u202F') = o :=
    List.filter_eq_self.mpr (fun a ha => by
      simpa using (hnb3 a ha).2.2)
  have h2 : removeNonBreakingSpaces o = o := by
    unfold removeNonBreakingSpaces
    rw [e1, e2, e3]
  rw [h2]
  have h3 : toLower o = o := map_id_of toLowerChar o (fun c hc =>
    (ho c hc).2.1)
  rw [h3]
  have e4 : o.filter (fun c => !(invisibleChars.contains c)) = o :=
    List.filter_eq_self.mpr (fun a ha => by
      simpa using (ho a ha).2.2.2.2.1)
  have e5 : o.filter (fun c => !(isAsciiControl c)) = o :=
    List.filter_eq_self.mpr (fun a ha => by
      simpa using (ho a ha).2.2.2.2.2.1)
  have h4 : removeInvisibleChars o = o := by
    unfold removeInvisibleChars
    rw [e4, e5]
  rw [h4]
  exact map_id_of _ o (fun c hc =>
    if_neg (ne_true_of_eq_false (ho c hc).2.2.2.2.2.2))

end PipelineLemmas

section CollapseStripLemmas

/-- The collapse walk never emits two adjacent spaces, and with the
in-run flag set its output cannot start with a space. -/
theorem collapseAux_props :
    ∀ l : Str, Spec.noTwoSpaces (collapseAux false l) ∧
      Spec.noTwoSpaces (collapseAux true l) ∧
      (∀ x, (collapseAux true l).head? = some x → x ≠ ' ') := by
  intro l
  induction l with
  | nil =>
    refine ⟨List.chain'_nil, List.chain'_nil, fun x hx => ?_⟩
    cases hx
  | cons c cs ih =>
    obtain ⟨ihF, ihT, ihH⟩ := ih
    by_cases hc : c = ' '
    · subst hc
      have hF : collapseAux false (' ' :: cs) = ' ' :: collapseAux true cs := by
        simp [collapseAux]
      have hT : collapseAux true (' ' :: cs) = collapseAux true cs := by
        simp [collapseAux]
      refine ⟨?_, ?_, ?_⟩
      · rw [hF]
        exact List.chain'_cons'.mpr
          ⟨fun y hy hand => ihH y hy hand.2, ihT⟩
      · rw [hT]
        exact ihT
      · rw [hT]
        exact ihH
    · have hF : collapseAux false (c :: cs) = c :: collapseAux false cs := by
        simp [collapseAux, hc]
      have hT : collapseAux true (c :: cs) = c :: collapseAux false cs := by
        simp [collapseAux, hc]
      refine ⟨?_, ?_, ?_⟩
      · rw [hF]
        exact List.chain'_cons'.mpr ⟨fun y _ hand => hc hand.1, ihF⟩
      · rw [hT]
        exact List.chain'_cons'.mpr ⟨fun y _ hand => hc hand.1, ihF⟩
      · rw [hT]
        intro x hx
        simp only [List.head?_cons, Option.some.injEq] at hx
        rw [← hx]
        exact hc

/-- The collapse walk only emits characters of its input. -/
theorem collapseAux_mem :
    ∀ (l : Str) (b : Bool) (c : Char), c ∈ collapseAux b l → c ∈ l := by
  intro l
  induction l with
  | nil =>
    intro b c hc
    simp [collapseAux] at hc
  | cons d cs ih =>
    intro b c hc
    by_cases hd : d = ' '
    · subst hd
      cases b with
      | true =>
        have h1 : collapseAux true (' ' :: cs) = collapseAux true cs := by
          simp [collapseAux]
        rw [h1] at hc
        exact List.mem_cons_of_mem _ (ih true c hc)
      | false =>
        have h1 : collapseAux false (' ' :: cs) =
            ' ' :: collapseAux true cs := by
          simp [collapseAux]
        rw [h1] at hc
        rcases List.mem_cons.mp hc with h | h
        · exact h ▸ List.mem_cons_self _ _
        · exact List.mem_cons_of_mem _ (ih true c h)
    · have h1 : collapseAux b (d :: cs) = d :: collapseAux false cs := by
        cases b <;> simp [collapseAux, hd]
      rw [h1] at hc
      rcases List.mem_cons.mp hc with h | h
      · exact h ▸ List.mem_cons_self _ _
      · exact List.mem_cons_of_mem _ (ih false c h)

/-- On a string without adjacent double spaces the collapse walk is the
identity (for the in-run flag, provided the string does not begin with a
space). -/
theorem collapse_fixed :
    ∀ l : Str, Spec.noTwoSpaces l →
      collapseAux false l = l ∧
      ((∀ x, l.head? = some x → x ≠ ' ') → collapseAux true l = l) := by
  intro l
  induction l with
  | nil => exact fun _ => ⟨rfl, fun _ => rfl⟩
  | cons c cs ih =>
    intro hnts
    have hpair := (List.chain'_cons'.mp hnts).1
    have hnts' : Spec.noTwoSpaces cs := (List.chain'_cons'.mp hnts).2
    obtain ⟨ihF, ihT⟩ := ih hnts'
    by_cases hc : c = ' '
    · subst hc
      constructor
      · have h1 : collapseAux false (' ' :: cs) =
            ' ' :: collapseAux true cs := by
          simp [collapseAux]
        rw [h1, ihT (fun x hx hxs => hpair x hx ⟨rfl, hxs⟩)]
      · intro hhead
        exact absurd rfl (hhead ' ' rfl)
    · constructor
      · have h1 : collapseAux false (c :: cs) = c :: collapseAux false cs := by
          simp [collapseAux, hc]
        rw [h1, ihF]
      · intro _
        have h1 : collapseAux true (c :: cs) = c :: collapseAux false cs := by
          simp [collapseAux, hc]
        rw [h1, ihF]

/-- No-double-space survives reversal (the relation is symmetric). -/
theorem noTwoSpaces_reverse (l : Str) (h : Spec.noTwoSpaces l) :
    Spec.noTwoSpaces l.reverse := by
  unfold Spec.noTwoSpaces at h ⊢
  rw [List.chain'_reverse]
  exact List.Chain'.imp (fun a b hab hc => hab ⟨hc.2, hc.1⟩) h

/-- No-double-space survives stripping. -/
theorem noTwoSpaces_pyStrip (l : Str) (h : Spec.noTwoSpaces l) :
    Spec.noTwoSpaces (pyStrip l) := by
  unfold pyStrip
  apply noTwoSpaces_reverse
  exact List.Chain'.suffix
    (noTwoSpaces_reverse _ (List.Chain'.suffix h (List.dropWhile_suffix _)))
    (List.dropWhile_suffix _)

/-- Stripping only keeps characters of its input. -/
theorem pyStrip_subset (l : Str) : ∀ c ∈ pyStrip l, c ∈ l := by
  intro c hc
  unfold pyStrip at hc
  rw [List.mem_reverse] at hc
  have h1 := (List.dropWhile_sublist _).subset hc
  rw [List.mem_reverse] at h1
  exact (List.dropWhile_sublist _).subset h1

/-- The head of a `dropWhile` fails the predicate. -/
theorem dropWhile_head_not (p : Char → Bool) :
    ∀ (l : Str) (a : Char), (l.dropWhile p).head? = some a → p a = false := by
  intro l
  induction l with
  | nil =>
    intro a h
    cases h
  | cons c cs ih =>
    intro a h
    by_cases hc : p c = true
    · rw [List.dropWhile_cons_of_pos hc] at h
      exact ih a h
    · rw [List.dropWhile_cons_of_neg hc] at h
      simp only [List.head?_cons, Option.some.injEq] at h
      rw [← h]
      exact Bool.eq_false_iff.mpr hc

/-- `dropWhile` is the identity when the head already fails the
predicate. -/
theorem dropWhile_eq_self_of (p : Char → Bool) (l : Str)
    (h : ∀ a, l.head? = some a → p a = false) : l.dropWhile p = l := by
  cases l with
  | nil => rfl
  | cons c cs =>
    have := h c rfl
    rw [List.dropWhile_cons_of_neg (by simp [this])]

/-- Nonempty prefixes share their head. -/
theorem head?_of_isPrefix {X Y : Str} (h : X <+: Y) (hne : X ≠ []) :
    Y.head? = X.head? := by
  obtain ⟨t, rfl⟩ := h
  cases X with
  | nil => exact absurd rfl hne
  | cons a xs => rfl

/-- Stripping twice is stripping once. -/
theorem pyStrip_idem (l : Str) : pyStrip (pyStrip l) = pyStrip l := by
  unfold pyStrip
  have hBR : ((l.dropWhile (fun c => pyWhitespaceChars.contains c)).reverse.dropWhile
        (fun c => pyWhitespaceChars.contains c)).reverse.dropWhile
      (fun c => pyWhitespaceChars.contains c) =
      ((l.dropWhile (fun c => pyWhitespaceChars.contains c)).reverse.dropWhile
        (fun c => pyWhitespaceChars.contains c)).reverse := by
    apply dropWhile_eq_self_of
    intro a ha
    by_cases hBnil : (l.dropWhile (fun c => pyWhitespaceChars.contains c)).reverse.dropWhile
        (fun c => pyWhitespaceChars.contains c) = []
    · rw [hBnil] at ha
      cases ha
    · have hpre : ((l.dropWhile (fun c => pyWhitespaceChars.contains c)).reverse.dropWhile
          (fun c => pyWhitespaceChars.contains c)).reverse <+:
          l.dropWhile (fun c => pyWhitespaceChars.contains c) := by
        have := List.reverse_prefix.mpr
          (List.dropWhile_suffix (l := (l.dropWhile
            (fun c => pyWhitespaceChars.contains c)).reverse)
            (fun c => pyWhitespaceChars.contains c))
        simpa using this
      have hhead := head?_of_isPrefix hpre (by simpa using hBnil)
      rw [← hhead] at ha
      exact dropWhile_head_not _ l a ha
  rw [hBR, List.reverse_reverse,
    dropWhile_eq_self_of _ _ (fun a ha => dropWhile_head_not _ _ a ha)]

end CollapseStripLemmas

/-- Counterexample to claim C4 as stated: `normalize` is not idempotent.
On `"a" + U+200B + U+0300` the first pass removes the zero-width space,
leaving the letter directly followed by the combining grave accent; the
second pass's NFKC step then composes them into `à`, a different string. -/
theorem C4_cex :
    process (process ['a', '\u200B', '\u0300']) ≠ process ['a', '\u200B', '\u0300'] := by decide

/-- Claim C4 (corrected): `normalize` is idempotent on every string free of
combining marks (modelled: U+0300).  In general the invisible-character
removal can splice a base letter against a combining mark and lowercasing
can rewrite composed letters, letting a second NFKC pass change the text,
as in the counterexample. -/
theorem C4_idempotent (s : Str) (hs : ∀ c ∈ s, c ≠ '\u0300') :
    process (process s) = process s := by
  have hu : ∀ c ∈ s.flatMap decompChar, c ≠ '\u0300' := by
    intro c hc
    obtain ⟨x, hx, hcx⟩ := List.mem_flatMap.mp hc
    exact (decompChar_props x c hcx).2 (hs x hx)
  have hfw : fullwidthToHalfwidth s = s.flatMap decompChar := by
    unfold fullwidthToHalfwidth
    exact composePass_id _ hu
  have hstage := stage_chars s hs
  set o := process s with hodef
  have hps : o = pyStrip (collapseAux false (normalizeSpaces
      (removeInvisibleChars (toLower (removeNonBreakingSpaces
        (s.flatMap decompChar)))))) := by
    rw [hodef]
    unfold process collapseSpaces
    rw [hfw]
  have hostable : ∀ c ∈ o, Spec.stableChar c := by
    intro c hc
    rw [hps] at hc
    exact hstage c (collapseAux_mem _ false c (pyStrip_subset _ c hc))
  have hNTS : Spec.noTwoSpaces o := by
    rw [hps]
    exact noTwoSpaces_pyStrip _ (collapseAux_props _).1
  show process o = o
  unfold process collapseSpaces
  rw [inner_fixed o hostable, (collapse_fixed o hNTS).1, hps]
  exact pyStrip_idem _

/-- Witness for C4 on the mark-free string `"A  b"`. -/
theorem C4_witness :
    process (process ['A', ' ', ' ', 'b']) = process ['A', ' ', ' ', 'b'] :=
  C4_idempotent ['A', ' ', ' ', 'b'] (by decide)

/-- Witness for C8 on the buffer `"ab\n"`: the run the `$` accepts ends
just before the final newline, and with both constraints the run plus the
newline is the whole buffer. -/
theorem C8_witness :
    ((['a', 'b'] : Str) ≠ [] ∧
      (['a', 'b'] : Str).all (isBaseChar []) = true ∧
      ((['a', 'b'] : Str) <:+ ['a', 'b', '\x0A'] ∨
        (['a', 'b'] : Str) ++ ['\x0A'] <:+ ['a', 'b', '\x0A'])) ∧
    ((['a', 'b'] : Str) = ['a', 'b', '\x0A'] ∨
      (['a', 'b'] : Str) ++ ['\x0A'] = ['a', 'b', '\x0A']) :=
  ⟨(C8_runs ['a', 'b', '\x0A'] []).2.1 ['a', 'b'] (by decide),
   (C8_runs ['a', 'b', '\x0A'] []).2.2.2.1 ['a', 'b'] (by decide)⟩

/-- Witness for C10 on the query `"a"`: the resolved list is the detected
list and its single span is tagged `'DETECTED'`. -/
theorem C10_witness :
    processQuery ['a'] [] [] [] false false =
      detectPotentialEntities (preprocessQuery ['a']) [] false false ∧
    Span.type (Span.mk ['a'] 0 1 detectedType) = detectedType :=
  ⟨(C10_shipped_refinement ['a'] [] [] [] false false).1,
   (C10_shipped_refinement ['a'] [] [] [] false false).2
     (Span.mk ['a'] 0 1 detectedType) (by decide)⟩
